import Mathlib

/-!
Verification of the Douyin / TikTok video-id decoder (`decode_aweme_id.py`)
against its natural-language specification.

The source operates on Python arbitrary-precision integers; we embed the
relevant operators (`>>`, `<<`, `&`, `|`) as functions on `ℤ` with Python's
two's-complement semantics, and the fallible parts (CPython `datetime`
range errors, division by zero) as `Except`.
-/

/-- Python's arithmetic right shift on arbitrary-precision integers:
`n >> k` equals floor division of `n` by `2 ^ k` (for either sign of `n`). -/
def pyShiftRight (n : ℤ) (k : ℕ) : ℤ := Int.fdiv n (2 ^ k)

/-- Python's left shift on arbitrary-precision integers:
`n << k` equals exact multiplication of `n` by `2 ^ k`. -/
def pyShiftLeft (n : ℤ) (k : ℕ) : ℤ := n * 2 ^ k

/-- Python's bitwise `&` on arbitrary-precision integers, which acts on the
two's-complement representation; `Int.land` implements exactly that. -/
def pyAnd (a b : ℤ) : ℤ := Int.land a b

/-- Python's bitwise `|` on arbitrary-precision integers, which acts on the
two's-complement representation; `Int.lor` implements exactly that. -/
def pyOr (a b : ℤ) : ℤ := Int.lor a b

/-- Exceptions the embedded code can raise: `overflowError` stands for the
`OverflowError`/`ValueError` raised by CPython `datetime` conversions on an
out-of-range timestamp, and `zeroDivisionError` for `ZeroDivisionError`. -/
inductive PyErr where
  | overflowError : PyErr
  | zeroDivisionError : PyErr
deriving DecidableEq, Repr

/-- Smallest second-level timestamp for which the rendering in
`decode_aweme_id` (`datetime.fromtimestamp(ts, tz=utc)` followed by
`astimezone(LA_TZ)`) succeeds: `0001-01-01T00:00:00` in the
`America/Los_Angeles` local-mean-time offset of `-07:52:58`. -/
def tsMin : ℤ := -62135568422

/-- Largest second-level timestamp the rendering in `decode_aweme_id`
accepts: `9999-12-31T23:59:59` UTC. -/
def tsMax : ℤ := 253402300799

/-- The timestamp renderings performed by `decode_aweme_id` (lines 46-47 of
the source) succeed exactly when the timestamp lies in CPython's
representable calendar window. -/
def fromtimestampOk (ts : ℤ) : Prop := tsMin ≤ ts ∧ ts ≤ tsMax

instance (ts : ℤ) : Decidable (fromtimestampOk ts) := by
  unfold fromtimestampOk; infer_instance

/-- Numeric content of the dictionary returned by `decode_aweme_id`: the
input id, the high 32 bits as timestamp, the low 32 bits. The remaining
dictionary entries are string renderings of these numbers. -/
structure DecodedId where
  id : ℤ
  timestamp_sec : ℤ
  low32 : ℤ
deriving DecidableEq, Repr

/-- `decode_aweme_id` (source lines 42-57): `ts_sec = n >> 32`,
`low32 = n & 0xFFFFFFFF`, then the timestamps are rendered as dates (which
raises when out of CPython's calendar range) and the result is returned.
The argument is the integer already parsed from the decimal string. -/
def decode_aweme_id (n : ℤ) : Except PyErr DecodedId :=
  let ts_sec := pyShiftRight n 32
  let low32 := pyAnd n 0xFFFFFFFF
  if fromtimestampOk ts_sec then .ok ⟨n, ts_sec, low32⟩
  else .error .overflowError

/-- `forge_aweme_like_id` (source lines 107-118) with the low 32 bits given
explicitly: `(ts_sec << 32) | (low32 & 0xFFFFFFFF)`. When the caller omits
`low32` the source draws it from `secrets.randbits(32)`; all claims concern
the explicit-argument path. -/
def forge_aweme_like_id (ts_sec : ℤ) (low32 : ℤ) : ℤ :=
  pyOr (pyShiftLeft ts_sec 32) (pyAnd low32 0xFFFFFFFF)

instance {ε α : Type} [DecidableEq ε] [DecidableEq α] : DecidableEq (Except ε α) := fun a b =>
  match a, b with
  | .ok x, .ok y =>
      if h : x = y then .isTrue (by rw [h])
      else .isFalse (by intro he; injection he; contradiction)
  | .error x, .error y =>
      if h : x = y then .isTrue (by rw [h])
      else .isFalse (by intro he; injection he; contradiction)
  | .ok _, .error _ => .isFalse (fun he => Except.noConfusion he)
  | .error _, .ok _ => .isFalse (fun he => Except.noConfusion he)

theorem pyAnd_coe (m n : ℕ) : pyAnd (m : ℤ) (n : ℤ) = ((m &&& n : ℕ) : ℤ) := rfl

theorem pyOr_coe (m n : ℕ) : pyOr (m : ℤ) (n : ℤ) = ((m ||| n : ℕ) : ℤ) := rfl

theorem pyShiftRight_coe (m : ℕ) (k : ℕ) :
    pyShiftRight (m : ℤ) k = ((m >>> k : ℕ) : ℤ) := by
  unfold pyShiftRight
  rw [Nat.shiftRight_eq_div_pow, Int.ofNat_fdiv]
  push_cast
  rfl

theorem pyShiftLeft_coe (m : ℕ) (k : ℕ) :
    pyShiftLeft (m : ℤ) k = ((m <<< k : ℕ) : ℤ) := by
  unfold pyShiftLeft
  rw [Nat.shiftLeft_eq]
  push_cast
  ring

theorem decode_ok (n : ℤ) (h : fromtimestampOk (pyShiftRight n 32)) :
    decode_aweme_id n = .ok ⟨n, pyShiftRight n 32, pyAnd n 0xFFFFFFFF⟩ := by
  simp [decode_aweme_id, h]

theorem ftOk_of_lt_two_pow_64 (n : ℤ) (h0 : 0 ≤ n) (h1 : n < 2 ^ 64) :
    fromtimestampOk (pyShiftRight n 32) := by
  unfold pyShiftRight fromtimestampOk tsMin tsMax
  have hpos : (0 : ℤ) < 2 ^ 32 := by norm_num
  have hnn : 0 ≤ Int.fdiv n (2 ^ 32) := Int.fdiv_nonneg h0 (le_of_lt hpos)
  refine ⟨by linarith, ?_⟩
  rw [Int.fdiv_eq_ediv n (le_of_lt hpos)]
  have hlt : n / 2 ^ 32 < 2 ^ 32 := by
    rw [Int.ediv_lt_iff_lt_mul hpos]
    calc n < 2 ^ 64 := h1
    _ = 2 ^ 32 * 2 ^ 32 := by norm_num
  linarith

theorem forge_coe (t l : ℕ) :
    forge_aweme_like_id (t : ℤ) (l : ℤ) = ((2 ^ 32 * t + l % 2 ^ 32 : ℕ) : ℤ) := by
  unfold forge_aweme_like_id
  rw [show (0xFFFFFFFF : ℤ) = ((0xFFFFFFFF : ℕ) : ℤ) by norm_num,
    pyAnd_coe, pyShiftLeft_coe, pyOr_coe]
  have key : (t <<< 32) ||| (l &&& 0xFFFFFFFF) = 2 ^ 32 * t + l % 2 ^ 32 := by
    rw [Nat.shiftLeft_eq,
      show (0xFFFFFFFF : ℕ) = 2 ^ 32 - 1 by norm_num,
      Nat.and_pow_two_sub_one_eq_mod, Nat.mul_comm t (2 ^ 32)]
    exact (Nat.mul_add_lt_is_or (Nat.mod_lt l (by norm_num)) t).symm
  exact_mod_cast congrArg (Nat.cast : ℕ → ℤ) key

/-- C1 (counterexample): the id `7153549929326120227` decodes to timestamp
`1665565634`, not `1665565640` as the claim asserts; `1665565640` is the
video's ground-truth `create_time`, which the shifted timestamp misses by
six seconds. -/
theorem decode_sample_timestamp_value :
    decode_aweme_id 7153549929326120227 =
      .ok ⟨7153549929326120227, 1665565634, 1954614563⟩
    ∧ (1665565634 : ℤ) ≠ 1665565640 := by
  constructor
  · rw [decode_ok _ (by decide)]
    decide
  · decide

/-- C1 (amended): for every id below `2 ^ 64`, `decode_aweme_id` returns
`timestamp_sec = id >> 32` and `low32 = id & 0xFFFFFFFF`; in particular the
id `7153549929326120227` decodes to timestamp `1665565634` (six seconds
before its ground-truth `create_time` of `1665565640`). -/
theorem decode_shift_and_mask :
    (∀ n : ℕ, n < 2 ^ 64 →
      decode_aweme_id (n : ℤ) =
        .ok ⟨(n : ℤ), ((n >>> 32 : ℕ) : ℤ), ((n &&& 0xFFFFFFFF : ℕ) : ℤ)⟩)
    ∧ decode_aweme_id 7153549929326120227 =
        .ok ⟨7153549929326120227, 1665565634,
          ((7153549929326120227 &&& 0xFFFFFFFF : ℕ) : ℤ)⟩ := by
  constructor
  · intro n hn
    have h1 : ((n : ℤ)) < 2 ^ 64 := by exact_mod_cast hn
    rw [decode_ok _ (ftOk_of_lt_two_pow_64 _ (Int.ofNat_nonneg n) h1),
      show (0xFFFFFFFF : ℤ) = ((0xFFFFFFFF : ℕ) : ℤ) by norm_num,
      pyShiftRight_coe, pyAnd_coe]
  · rw [decode_ok _ (by decide)]
    decide

/-- C2: decoding an id forged from `t < 2 ^ 32` and explicit `l < 2 ^ 32`
returns exactly the pair `(t, l)`. -/
theorem decode_forge_roundtrip :
    ∀ t l : ℕ, t < 2 ^ 32 → l < 2 ^ 32 →
      decode_aweme_id (forge_aweme_like_id (t : ℤ) (l : ℤ)) =
        .ok ⟨forge_aweme_like_id (t : ℤ) (l : ℤ), (t : ℤ), (l : ℤ)⟩ := by
  intro t l ht hl
  have hval : forge_aweme_like_id (t : ℤ) (l : ℤ) = ((2 ^ 32 * t + l : ℕ) : ℤ) := by
    rw [forge_coe, Nat.mod_eq_of_lt hl]
  have hltN : 2 ^ 32 * t + l < 2 ^ 64 := by
    have h1 : 2 ^ 32 * t + l < 2 ^ 32 * (t + 1) := by
      rw [Nat.mul_add, Nat.mul_one]
      exact Nat.add_lt_add_left hl _
    have h2 : 2 ^ 32 * (t + 1) ≤ 2 ^ 32 * 2 ^ 32 :=
      Nat.mul_le_mul_left _ (Nat.succ_le_of_lt ht)
    calc 2 ^ 32 * t + l < 2 ^ 32 * (t + 1) := h1
    _ ≤ 2 ^ 32 * 2 ^ 32 := h2
    _ = 2 ^ 64 := by norm_num
  rw [hval, decode_ok _ (ftOk_of_lt_two_pow_64 _ (Int.ofNat_nonneg _)
    (by exact_mod_cast hltN)),
    show (0xFFFFFFFF : ℤ) = ((0xFFFFFFFF : ℕ) : ℤ) by norm_num,
    pyShiftRight_coe, pyAnd_coe]
  have hts : (2 ^ 32 * t + l) >>> 32 = t := by
    rw [Nat.shiftRight_eq_div_pow, Nat.mul_add_div (by norm_num),
      Nat.div_eq_of_lt hl, Nat.add_zero]
  have hlow : (2 ^ 32 * t + l) &&& 0xFFFFFFFF = l := by
    rw [show (0xFFFFFFFF : ℕ) = 2 ^ 32 - 1 by norm_num,
      Nat.and_pow_two_sub_one_eq_mod, Nat.mul_add_mod,
      Nat.mod_eq_of_lt hl]
  rw [hts, hlow]

/-- Witness for C1 at the concrete id `42`. -/
theorem decode_shift_and_mask_witness :
    decode_aweme_id ((42 : ℕ) : ℤ) =
      .ok ⟨((42 : ℕ) : ℤ), ((42 >>> 32 : ℕ) : ℤ), ((42 &&& 0xFFFFFFFF : ℕ) : ℤ)⟩ :=
  decode_shift_and_mask.1 42 (by norm_num)

/-- Witness for C2 at the concrete pair `(1665565640, 305419896)`. -/
theorem decode_forge_roundtrip_witness :
    decode_aweme_id (forge_aweme_like_id ((1665565640 : ℕ) : ℤ) ((305419896 : ℕ) : ℤ)) =
      .ok ⟨forge_aweme_like_id ((1665565640 : ℕ) : ℤ) ((305419896 : ℕ) : ℤ),
        ((1665565640 : ℕ) : ℤ), ((305419896 : ℕ) : ℤ)⟩ :=
  decode_forge_roundtrip 1665565640 305419896 (by norm_num) (by norm_num)

/-- C10: `forge_aweme_like_id` masks its explicit `low32` argument to 32
bits but neither masks nor range-checks `ts_sec`: for nonnegative
arguments the result is `ts_sec * 2 ^ 32 + low32 % 2 ^ 32`, an oversized
`low32` is silently truncated, and an oversized `ts_sec` overflows past
`2 ^ 64 - 1`. -/
theorem forge_no_ts_mask :
    (∀ ts low : ℤ, 0 ≤ ts → 0 ≤ low →
      forge_aweme_like_id ts low = ts * 2 ^ 32 + low % 2 ^ 32)
    ∧ (∀ ts low : ℤ, 0 ≤ ts → 2 ^ 32 ≤ low →
      forge_aweme_like_id ts low = forge_aweme_like_id ts (low % 2 ^ 32))
    ∧ (∀ ts low : ℤ, 2 ^ 32 ≤ ts → 0 ≤ low →
      (2 ^ 64 - 1 : ℤ) < forge_aweme_like_id ts low) := by
  have base : ∀ ts low : ℤ, 0 ≤ ts → 0 ≤ low →
      forge_aweme_like_id ts low = ts * 2 ^ 32 + low % 2 ^ 32 := by
    intro ts low hts hlow
    obtain ⟨a, rfl⟩ := Int.eq_ofNat_of_zero_le hts
    obtain ⟨b, rfl⟩ := Int.eq_ofNat_of_zero_le hlow
    rw [forge_coe]
    push_cast
    ring
  refine ⟨base, ?_, ?_⟩
  · intro ts low hts hlow
    have h0 : (0 : ℤ) ≤ low := le_trans (by norm_num) hlow
    have hm : (0 : ℤ) ≤ low % 2 ^ 32 := Int.emod_nonneg low (by norm_num)
    rw [base ts low hts h0, base ts _ hts hm,
      Int.emod_emod_of_dvd low (dvd_refl _)]
  · intro ts low hts hlow
    have hm : (0 : ℤ) ≤ low % 2 ^ 32 := Int.emod_nonneg low (by norm_num)
    rw [base ts low (le_trans (by norm_num) hts) hlow]
    have h1 : (2 : ℤ) ^ 32 * 2 ^ 32 ≤ ts * 2 ^ 32 :=
      mul_le_mul_of_nonneg_right hts (by norm_num)
    have h2 : (2 : ℤ) ^ 32 * 2 ^ 32 = 2 ^ 64 := by norm_num
    linarith

/-- Witness for C10 at `ts = 1`, `low = 2 ^ 32 + 7`. -/
theorem forge_no_ts_mask_witness :
    forge_aweme_like_id 1 (2 ^ 32 + 7) = 1 * 2 ^ 32 + (2 ^ 32 + 7) % 2 ^ 32 :=
  forge_no_ts_mask.1 1 (2 ^ 32 + 7) (by norm_num) (by norm_num)

/-- C6 (counterexample): the id `2 ^ 64`, which exceeds the 64-bit unsigned
range, is decoded without any error: `decode_aweme_id` returns a result
with `timestamp_sec = 2 ^ 32` instead of raising `InvalidInput`. -/
theorem decode_out_of_range_returns_ok :
    decode_aweme_id (2 ^ 64 : ℤ) = .ok ⟨2 ^ 64, 2 ^ 32, 0⟩ := by decide

/-- C6 (amended): `decode_aweme_id` and `forge_aweme_like_id` perform no
input validation at all. Every integer id whose shifted timestamp fits
CPython's calendar window decodes successfully — including negative ids
and ids at or above `2 ^ 64` — and forging from an oversized timestamp
silently produces a value beyond the 64-bit range. The only failures are a
`ValueError` from `int()` on a non-integral string and the calendar-range
error of the date renderings; no `InvalidInput` condition exists. -/
theorem decode_forge_no_validation :
    (∀ n : ℤ, fromtimestampOk (pyShiftRight n 32) →
      decode_aweme_id n = .ok ⟨n, pyShiftRight n 32, pyAnd n 0xFFFFFFFF⟩)
    ∧ decode_aweme_id (-1) = .ok ⟨-1, -1, 4294967295⟩
    ∧ forge_aweme_like_id (2 ^ 32) 0 = 2 ^ 64 := by
  refine ⟨decode_ok, ?_, by decide⟩
  have hld : ∀ n : ℕ, Nat.ldiff n 0 = n := fun n =>
    Nat.eq_of_testBit_eq (fun i => by simp [Nat.testBit_ldiff])
  rw [decode_ok _ (by decide)]
  have h1 : pyShiftRight (-1) 32 = -1 := by decide
  have h2 : pyAnd (-1) 0xFFFFFFFF = ((Nat.ldiff 4294967295 0 : ℕ) : ℤ) := rfl
  rw [h1, h2, hld]
  norm_num

/-- Witness for C6 (amended) at the negative id `-2`. -/
theorem decode_forge_no_validation_witness :
    decode_aweme_id (-2) = .ok ⟨-2, pyShiftRight (-2) 32, pyAnd (-2) 0xFFFFFFFF⟩ :=
  decode_forge_no_validation.1 (-2) (by decide)

/-- Scheme 1 of localized `analyze_low32` in `decode_aweme_id` (source
lines 67-71): standard Snowflake 10+10+12 split of the low 32 bits. -/
def scheme1 (low32 : ℕ) : List (String × ℕ) :=
  [("datacenter_id", (low32 >>> 22) &&& 0x3FF),
   ("worker_id", (low32 >>> 12) &&& 0x3FF),
   ("sequence", low32 &&& 0xFFF)]

/-- Scheme 2 (source lines 75-79): modified 8+8+16 split. -/
def scheme2 (low32 : ℕ) : List (String × ℕ) :=
  [("datacenter_id", (low32 >>> 24) &&& 0xFF),
   ("worker_id", (low32 >>> 16) &&& 0xFF),
   ("sequence", low32 &&& 0xFFFF)]

/-- Scheme 3 (source lines 83-86): simplified 16+16 split. -/
def scheme3 (low32 : ℕ) : List (String × ℕ) :=
  [("shard_id", (low32 >>> 16) &&& 0xFFFF),
   ("sequence", low32 &&& 0xFFFF)]

/-- Scheme 4 (source lines 90-95): byte 8+8+8+8 split. -/
def scheme4 (low32 : ℕ) : List (String × ℕ) :=
  [("byte3", (low32 >>> 24) &&& 0xFF),
   ("byte2", (low32 >>> 16) &&& 0xFF),
   ("byte1", (low32 >>> 8) &&& 0xFF),
   ("byte0", low32 &&& 0xFF)]

/-- The `low32_analysis` dictionary built by `decode_aweme_id` when
`analyze_low32` is requested (source lines 97-102). -/
def low32_analysis (low32 : ℕ) : List (String × List (String × ℕ)) :=
  [("scheme1_10_10_12", scheme1 low32),
   ("scheme2_8_8_16", scheme2 low32),
   ("scheme3_16_16", scheme3 low32),
   ("scheme4_bytes", scheme4 low32)]

/-- A partition-scheme field as the spec describes it: a name, a bit width
and a bit offset. -/
structure SchemeField where
  fname : String
  width : ℕ
  offset : ℕ
deriving DecidableEq, Repr

/-- The spec's generic field extraction:
`value = (low32 >> offset) & ((1 << width) - 1)`. -/
def extract_field (low32 : ℕ) (f : SchemeField) : ℕ :=
  (low32 >>> f.offset) &&& ((1 <<< f.width) - 1)

/-- The four registered partition schemes, read off the shifts and masks of
the source's `analyze_low32` block. -/
def all_schemes : List (String × List SchemeField) :=
  [("scheme1_10_10_12",
    [⟨"datacenter_id", 10, 22⟩, ⟨"worker_id", 10, 12⟩, ⟨"sequence", 12, 0⟩]),
   ("scheme2_8_8_16",
    [⟨"datacenter_id", 8, 24⟩, ⟨"worker_id", 8, 16⟩, ⟨"sequence", 16, 0⟩]),
   ("scheme3_16_16",
    [⟨"shard_id", 16, 16⟩, ⟨"sequence", 16, 0⟩]),
   ("scheme4_bytes",
    [⟨"byte3", 8, 24⟩, ⟨"byte2", 8, 16⟩, ⟨"byte1", 8, 8⟩, ⟨"byte0", 8, 0⟩])]

/-- Applying one scheme: every field is extracted by the generic formula. -/
def analyze_scheme (low32 : ℕ) (fields : List SchemeField) : List (String × ℕ) :=
  fields.map (fun f => (f.fname, extract_field low32 f))

/-- C7: for every `low32` below `2 ^ 32`, the analysis block of
`decode_aweme_id` applies all four registered schemes, and each produced
field value equals `(low32 >> offset) & ((1 << width) - 1)` for that
field's registered width and offset. -/
theorem analysis_matches_generic_extraction :
    ∀ low32 : ℕ, low32 < 2 ^ 32 →
      low32_analysis low32 =
        all_schemes.map (fun s => (s.1, analyze_scheme low32 s.2)) := by
  intro low32 _
  simp only [low32_analysis, scheme1, scheme2, scheme3, scheme4, all_schemes,
    analyze_scheme, extract_field, List.map_cons, List.map_nil,
    Nat.shiftRight_zero, Nat.shiftLeft_eq, Nat.one_mul]

/-- Witness for C7 at `low32 = 0`. -/
theorem analysis_matches_generic_extraction_witness :
    low32_analysis 0 =
      all_schemes.map (fun s => (s.1, analyze_scheme 0 s.2)) :=
  analysis_matches_generic_extraction 0 (by norm_num)

/-- The individual bit positions a field occupies. -/
def field_bits (f : SchemeField) : List ℕ :=
  (List.range f.width).map (· + f.offset)

/-- All bit positions claimed by a scheme's fields, in order. -/
def scheme_bits (fields : List SchemeField) : List ℕ :=
  fields.flatMap field_bits

/-- A scheme is well formed when its widths sum to 32, no bit is claimed
twice, every claimed bit is below 32, and every bit below 32 is claimed. -/
def scheme_well_formed (fields : List SchemeField) : Prop :=
  (fields.map (fun f => f.width)).sum = 32
    ∧ (scheme_bits fields).Nodup
    ∧ (∀ b ∈ scheme_bits fields, b < 32)
    ∧ (∀ b ∈ List.range 32, b ∈ scheme_bits fields)

instance (fields : List SchemeField) : Decidable (scheme_well_formed fields) := by
  unfold scheme_well_formed; infer_instance

/-- C8: every registered partition scheme has pairwise-disjoint field bit
ranges whose widths sum to exactly 32 and whose union covers exactly the
bits `[0, 32)`. -/
theorem registered_schemes_cover_32_bits :
    ∀ s ∈ all_schemes, scheme_well_formed s.2 := by decide

/-- Witness for C8 at the registered 16+16 scheme. -/
theorem registered_schemes_cover_32_bits_witness :
    scheme_well_formed [⟨"shard_id", 16, 16⟩, ⟨"sequence", 16, 0⟩] :=
  registered_schemes_cover_32_bits
    ("scheme3_16_16", [⟨"shard_id", 16, 16⟩, ⟨"sequence", 16, 0⟩]) (by decide)

/-- Outcome of the per-record branch at source lines 344-351. -/
inductive MatchClass where
  | exact : MatchClass
  | close : MatchClass
  | divergent : MatchClass
deriving DecidableEq, Repr

/-- The classification branch of `validate_decode_algorithm` (source lines
344-351): `time_diff == 0` is an exact match, otherwise `abs(time_diff) <= 5`
is a close match, otherwise a large error. -/
def classify (d : ℤ) : MatchClass :=
  if d = 0 then .exact
  else if |d| ≤ 5 then .close
  else .divergent

/-- C3: the validator classifies a delta as exact precisely when it is `0`,
as close precisely when it is nonzero with absolute value at most `5`, and
as divergent precisely when its absolute value exceeds `5`; the boundary
values `5, -5` are close and `6, -6` divergent. -/
theorem classify_boundaries :
    (∀ d : ℤ,
      (classify d = .exact ↔ d = 0)
      ∧ (classify d = .close ↔ d ≠ 0 ∧ |d| ≤ 5)
      ∧ (classify d = .divergent ↔ 5 < |d|))
    ∧ classify 5 = .close ∧ classify (-5) = .close
    ∧ classify 6 = .divergent ∧ classify (-6) = .divergent
    ∧ classify 0 = .exact := by
  refine ⟨?_, by decide, by decide, by decide, by decide, by decide⟩
  intro d
  unfold classify
  split_ifs with h1 h2
  · subst h1
    refine ⟨by norm_num, by norm_num, by norm_num⟩
  · have h5 : ¬ (5 : ℤ) < |d| := not_lt.mpr h2
    refine ⟨by simp [h1], by simp [h1, h2], by simp [h5]⟩
  · have h5 : (5 : ℤ) < |d| := not_le.mp h2
    refine ⟨by simp [h1], by simp [h2], by simp [h5]⟩

/-- Witness for C3: the boundary delta `5` classifies as close, obtained
from the iff at a concrete input. -/
theorem classify_boundaries_witness : classify 5 = MatchClass.close :=
  ((classify_boundaries.1 5).2.1).mpr (by decide)

/-- One record of the validation corpus (`aweme_ids_output.json` videos):
id (already parsed to an integer), ground-truth `create_time`, and the
`source` platform label. -/
structure Video where
  aweme_id : ℤ
  create_time : ℤ
  source : String
deriving DecidableEq, Repr

/-- The mutable `results` dictionary of `validate_decode_algorithm`
(source lines 308-315) as accumulated during the loop. -/
structure VState where
  total : ℕ
  exact_match : ℕ
  close_match : ℕ
  time_diffs : List ℤ
  douyin_diffs : List ℤ
  tiktok_diffs : List ℤ
deriving DecidableEq, Repr

/-- Initial `results` dictionary (source lines 308-315). -/
def initState : VState := ⟨0, 0, 0, [], [], []⟩

/-- One iteration of the validation loop (source lines 321-351) given the
decoded timestamp: compute `time_diff`, append its absolute value, bucket
the signed value by platform, and bump the classification counters. -/
def stepState (s : VState) (v : Video) (dts : ℤ) : VState :=
  let d := dts - v.create_time
  { total := s.total + 1
    exact_match := if classify d = .exact then s.exact_match + 1 else s.exact_match
    close_match := if classify d = .close then s.close_match + 1 else s.close_match
    time_diffs := s.time_diffs ++ [|d|]
    douyin_diffs := if v.source = "Douyin" then s.douyin_diffs ++ [d] else s.douyin_diffs
    tiktok_diffs := if v.source = "Douyin" then s.tiktok_diffs else s.tiktok_diffs ++ [d] }

/-- One loop iteration including the `decode_aweme_id` call, which raises
out of the loop when the id's timestamp cannot be rendered. -/
def stepE (s : VState) (v : Video) : Except PyErr VState :=
  match decode_aweme_id v.aweme_id with
  | .error e => .error e
  | .ok dec => .ok (stepState s v dec.timestamp_sec)

/-- The numeric statistics printed by `validate_decode_algorithm` (source
lines 360-412). -/
structure VStats where
  total : ℕ
  exact_match : ℕ
  close_match : ℕ
  large_error : ℕ
  exact_pct : ℚ
  close_pct : ℚ
  avg_diff : ℚ
  max_diff : ℤ
  min_diff : ℤ
  accuracy_rate : ℚ
deriving DecidableEq, Repr

/-- The statistics block of `validate_decode_algorithm` (source lines
360-412); the percentage divisions here are the first operations that
divide by `results["total"]`. -/
def mkStats (s : VState) : VStats :=
  { total := s.total
    exact_match := s.exact_match
    close_match := s.close_match
    large_error := s.total - s.exact_match - s.close_match
    exact_pct := (s.exact_match : ℚ) / (s.total : ℚ) * 100
    close_pct := (s.close_match : ℚ) / (s.total : ℚ) * 100
    avg_diff := ((s.time_diffs.sum : ℤ) : ℚ) / (s.time_diffs.length : ℚ)
    max_diff := match s.time_diffs with | [] => 0 | h :: t => t.foldl max h
    min_diff := match s.time_diffs with | [] => 0 | h :: t => t.foldl min h
    accuracy_rate := ((s.exact_match : ℚ) + (s.close_match : ℚ)) / (s.total : ℚ) * 100 }

/-- `validate_decode_algorithm` (source lines 287-412) over an in-memory
corpus: run the loop, then compute the statistics; with zero records the
percentage computation at line 367 divides by zero and the function
raises `ZeroDivisionError` instead of returning. -/
def validate_decode_algorithm (videos : List Video) : Except PyErr VStats :=
  match videos.foldlM stepE initState with
  | .error e => .error e
  | .ok s => if s.total = 0 then .error .zeroDivisionError else .ok (mkStats s)

/-- Timestamp decoded from a record's id, as the loop reads it back. -/
def decoded_ts (v : Video) : ℤ := pyShiftRight v.aweme_id 32

/-- Signed delta between decoded timestamp and ground truth. -/
def deltaOf (v : Video) : ℤ := decoded_ts v - v.create_time

/-- Number of corpus records falling in a given classification. -/
def countClass (videos : List Video) (c : MatchClass) : ℕ :=
  videos.countP (fun v => decide (classify (deltaOf v) = c))

/-- One loop step with the decode inlined, used to state the loop
invariants. -/
def stepD (s : VState) (v : Video) : VState := stepState s v (decoded_ts v)

theorem countClass_cons (v : Video) (vs : List Video) (c : MatchClass) :
    countClass (v :: vs) c =
      countClass vs c + if classify (deltaOf v) = c then 1 else 0 := by
  simp only [countClass, List.countP_cons, decide_eq_true_eq]

theorem stepE_ok (s : VState) (v : Video) (h : fromtimestampOk (decoded_ts v)) :
    stepE s v = .ok (stepD s v) := by
  unfold stepE
  rw [decode_ok _ h]
  rfl

theorem foldlM_stepE_ok (videos : List Video) :
    ∀ s : VState, (∀ v ∈ videos, fromtimestampOk (decoded_ts v)) →
      videos.foldlM stepE s = .ok (videos.foldl stepD s) := by
  induction videos with
  | nil => intro s _; rfl
  | cons v vs ih =>
    intro s hv
    rw [List.foldlM_cons, stepE_ok s v (hv v (by simp))]
    show vs.foldlM stepE (stepD s v) = _
    rw [ih _ (fun w hw => hv w (by simp [hw])), List.foldl_cons]

theorem foldl_stepD_total (videos : List Video) :
    ∀ s : VState, (videos.foldl stepD s).total = s.total + videos.length := by
  induction videos with
  | nil => intro s; simp
  | cons v vs ih =>
    intro s
    rw [List.foldl_cons, ih]
    simp only [stepD, stepState, List.length_cons]
    omega

theorem foldl_stepD_exact (videos : List Video) :
    ∀ s : VState,
      (videos.foldl stepD s).exact_match = s.exact_match + countClass videos .exact := by
  induction videos with
  | nil => intro s; simp [countClass]
  | cons v vs ih =>
    intro s
    rw [List.foldl_cons, ih, countClass_cons]
    simp only [stepD, stepState, deltaOf]
    split_ifs <;> omega

theorem foldl_stepD_close (videos : List Video) :
    ∀ s : VState,
      (videos.foldl stepD s).close_match = s.close_match + countClass videos .close := by
  induction videos with
  | nil => intro s; simp [countClass]
  | cons v vs ih =>
    intro s
    rw [List.foldl_cons, ih, countClass_cons]
    simp only [stepD, stepState, deltaOf]
    split_ifs <;> omega

/-- A two-record corpus whose ids both decode exactly to their ground-truth
timestamps: the sample id `7153549929326120227` (decoded timestamp
`1665565634`) and a forged id `1700000000 * 2 ^ 32 + 42`. -/
def two_record_corpus : List Video :=
  [⟨7153549929326120227, 1665565634, "A"⟩,
   ⟨7301444403200000042, 1700000000, "B"⟩]

/-- C4: for every non-empty corpus of 64-bit ids,
`validate_decode_algorithm` reports `accuracy_rate` equal to the number of
exact plus close records over the total, as a percentage; a two-record
corpus in which both decoded timestamps equal the ground truth reports
`exact_match = 2` and `accuracy_rate = 100`. -/
theorem validator_accuracy_rate :
    (∀ videos : List Video, videos ≠ [] →
      (∀ v ∈ videos, 0 ≤ v.aweme_id ∧ v.aweme_id < 2 ^ 64) →
      ∃ s, validate_decode_algorithm videos = .ok s
        ∧ s.total = videos.length
        ∧ s.exact_match = countClass videos .exact
        ∧ s.close_match = countClass videos .close
        ∧ s.accuracy_rate =
            ((countClass videos .exact + countClass videos .close : ℕ) : ℚ)
              / (videos.length : ℚ) * 100)
    ∧ (∃ s, validate_decode_algorithm two_record_corpus = .ok s
        ∧ s.exact_match = 2 ∧ s.accuracy_rate = 100) := by
  have main : ∀ videos : List Video, videos ≠ [] →
      (∀ v ∈ videos, 0 ≤ v.aweme_id ∧ v.aweme_id < 2 ^ 64) →
      ∃ s, validate_decode_algorithm videos = .ok s
        ∧ s.total = videos.length
        ∧ s.exact_match = countClass videos .exact
        ∧ s.close_match = countClass videos .close
        ∧ s.accuracy_rate =
            ((countClass videos .exact + countClass videos .close : ℕ) : ℚ)
              / (videos.length : ℚ) * 100 := by
    intro videos hne hbound
    have hq : ∀ v ∈ videos, fromtimestampOk (decoded_ts v) := fun v hv =>
      ftOk_of_lt_two_pow_64 _ (hbound v hv).1 (hbound v hv).2
    have htot : (videos.foldl stepD initState).total = videos.length := by
      rw [foldl_stepD_total]
      simp [initState]
    have hnz : ¬ (videos.foldl stepD initState).total = 0 := by
      rw [htot]
      simpa using hne
    have hex : (videos.foldl stepD initState).exact_match = countClass videos .exact := by
      rw [foldl_stepD_exact]
      simp [initState]
    have hcl : (videos.foldl stepD initState).close_match = countClass videos .close := by
      rw [foldl_stepD_close]
      simp [initState]
    refine ⟨mkStats (videos.foldl stepD initState), ?_, ?_, ?_, ?_, ?_⟩
    · unfold validate_decode_algorithm
      rw [foldlM_stepE_ok videos initState hq]
      simp [hnz]
    · simpa [mkStats] using htot
    · simpa [mkStats] using hex
    · simpa [mkStats] using hcl
    · simp only [mkStats, hex, hcl, htot]
      push_cast
      ring
  refine ⟨main, ?_⟩
  obtain ⟨s, hs, _, hex, hcl, hacc⟩ :=
    main two_record_corpus (by decide) (by decide)
  refine ⟨s, hs, ?_, ?_⟩
  · rw [hex]
    decide
  · rw [hacc, show countClass two_record_corpus .exact = 2 from by decide,
      show countClass two_record_corpus .close = 0 from by decide,
      show two_record_corpus.length = 2 from rfl]
    norm_num

/-- Witness for C4: the general statement applied to the concrete
two-record corpus. -/
theorem validator_accuracy_rate_witness :
    ∃ s, validate_decode_algorithm two_record_corpus = .ok s
      ∧ s.total = two_record_corpus.length
      ∧ s.exact_match = countClass two_record_corpus .exact
      ∧ s.close_match = countClass two_record_corpus .close
      ∧ s.accuracy_rate =
          ((countClass two_record_corpus .exact
              + countClass two_record_corpus .close : ℕ) : ℚ)
            / (two_record_corpus.length : ℚ) * 100 :=
  validator_accuracy_rate.1 two_record_corpus (by decide) (by decide)

/-- C5 (counterexample): on the empty corpus the validator fails with a
`ZeroDivisionError` raised by the percentage computation — not with any
distinct `EmptyCorpus` condition, which does not exist in the code. -/
theorem empty_corpus_zero_division :
    validate_decode_algorithm [] = .error PyErr.zeroDivisionError := rfl

/-- Whether a validation run returned statistics rather than raising. -/
def returns_stats (r : Except PyErr VStats) : Bool :=
  match r with
  | .ok _ => true
  | .error _ => false

/-- C5 (amended): validating an empty corpus never returns statistics (so
no accuracy rate of `0%`, `100%` or `NaN`): the run dies with an unhandled
`ZeroDivisionError` at the percentage computation, a crash past the corpus
boundary rather than a distinct `EmptyCorpus` result. -/
theorem empty_corpus_never_returns_stats :
    returns_stats (validate_decode_algorithm []) = false := rfl

/-- The low 32 bits of an id as a natural number, as the analysis block
receives them. -/
def low32_nat (n : ℤ) : ℕ := (pyAnd n 0xFFFFFFFF).toNat

/-- The 16/16-scheme shard sub-field of an id (`scheme3` applied to the
id's low 32 bits, source lines 84 and 202). -/
def shard_of (n : ℤ) : ℕ := (low32_nat n >>> 16) &&& 0xFFFF

/-- The 16/16-scheme sequence sub-field of an id (source lines 85 and 201). -/
def seq16_of (n : ℤ) : ℕ := low32_nat n &&& 0xFFFF

/-- Appending a value under a key in an insertion-ordered multimap, as
`defaultdict(list)` plus `append` does (source lines 197-206). -/
def group_insert (m : List (ℕ × List (String × ℤ))) (k : ℕ) (v : String × ℤ) :
    List (ℕ × List (String × ℤ)) :=
  match m with
  | [] => [(k, [v])]
  | (k0, l) :: t => if k0 = k then (k0, l ++ [v]) :: t else (k0, l) :: group_insert t k v

/-- Grouping the labelled corpus by a sub-field of each id, as the
collection loop of `statistical_analysis` does (source lines 200-206). -/
def group_by_key (key : ℤ → ℕ) (records : List (String × ℤ)) :
    List (ℕ × List (String × ℤ)) :=
  records.foldl (fun m r => group_insert m (key r.2) r) []

/-- The groups the report presents as collisions: those holding at least
two `(label, id)` pairs (`len(v) > 1`, source lines 210 and 221-224). -/
def dup_groups (key : ℤ → ℕ) (records : List (String × ℤ)) :
    List (ℕ × List (String × ℤ)) :=
  (group_by_key key records).filter (fun kv => decide (1 < kv.2.length))

/-- All records of the corpus whose id has the given sub-field value, in
corpus order. -/
def occ_list (key : ℤ → ℕ) (k : ℕ) (records : List (String × ℤ)) :
    List (String × ℤ) :=
  records.filter (fun r => decide (key r.2 = k))

/-- Dictionary lookup in the insertion-ordered multimap. -/
def find_val (m : List (ℕ × List (String × ℤ))) (k : ℕ) : Option (List (String × ℤ)) :=
  match m with
  | [] => none
  | (k0, l) :: t => if k0 = k then some l else find_val t k

/-- How a lookup changes when further records are folded in. -/
def opt_extend (o : Option (List (String × ℤ))) (occ : List (String × ℤ)) :
    Option (List (String × ℤ)) :=
  match o with
  | some l => some (l ++ occ)
  | none => if occ.isEmpty then none else some occ

theorem find_val_insert_self (m : List (ℕ × List (String × ℤ))) (k : ℕ) (v : String × ℤ) :
    find_val (group_insert m k v) k = some ((find_val m k).getD [] ++ [v]) := by
  induction m with
  | nil => simp [group_insert, find_val]
  | cons kv t ih =>
    obtain ⟨k0, l⟩ := kv
    by_cases h : k0 = k
    · subst h
      simp [group_insert, find_val]
    · simp [group_insert, find_val, h, ih]

theorem find_val_insert_ne (m : List (ℕ × List (String × ℤ))) (k k' : ℕ)
    (v : String × ℤ) (h : k' ≠ k) :
    find_val (group_insert m k v) k' = find_val m k' := by
  induction m with
  | nil => simp [group_insert, find_val, Ne.symm h]
  | cons kv t ih =>
    obtain ⟨k0, l⟩ := kv
    by_cases h0 : k0 = k
    · subst h0
      simp [group_insert, find_val, Ne.symm h]
    · by_cases h1 : k0 = k'
      · subst h1
        simp [group_insert, find_val, h0]
      · simp [group_insert, find_val, h0, h1, ih]

theorem find_val_fold (key : ℤ → ℕ) (rs : List (String × ℤ)) :
    ∀ (m : List (ℕ × List (String × ℤ))) (k : ℕ),
      find_val (rs.foldl (fun m r => group_insert m (key r.2) r) m) k =
        opt_extend (find_val m k) (occ_list key k rs) := by
  induction rs with
  | nil =>
    intro m k
    cases h : find_val m k <;> simp [opt_extend, occ_list, h]
  | cons r rs ih =>
    intro m k
    rw [List.foldl_cons, ih (group_insert m (key r.2) r) k]
    by_cases h : key r.2 = k
    · subst h
      rw [find_val_insert_self]
      have hocc : occ_list key (key r.2) (r :: rs) = r :: occ_list key (key r.2) rs := by
        simp [occ_list]
      rw [hocc]
      cases hfv : find_val m (key r.2) <;> simp [opt_extend]
    · rw [find_val_insert_ne _ _ _ _ (Ne.symm h)]
      have hocc : occ_list key k (r :: rs) = occ_list key k rs := by
        simp [occ_list, h]
      rw [hocc]

theorem find_val_group_by (key : ℤ → ℕ) (rs : List (String × ℤ)) (k : ℕ) :
    find_val (group_by_key key rs) k =
      if (occ_list key k rs).isEmpty then none else some (occ_list key k rs) := by
  unfold group_by_key
  rw [find_val_fold]
  rfl

/-- The keys of the multimap in insertion order. -/
def group_keys (m : List (ℕ × List (String × ℤ))) : List ℕ :=
  m.map (fun kv => kv.1)

theorem group_keys_insert (m : List (ℕ × List (String × ℤ))) (k : ℕ) (v : String × ℤ) :
    group_keys (group_insert m k v) =
      if k ∈ group_keys m then group_keys m else group_keys m ++ [k] := by
  induction m with
  | nil => simp [group_insert, group_keys]
  | cons kv t ih =>
    obtain ⟨k0, l⟩ := kv
    by_cases h : k0 = k
    · subst h
      simp [group_insert, group_keys]
    · have hgi : group_insert ((k0, l) :: t) k v = (k0, l) :: group_insert t k v := by
        simp [group_insert, h]
      rw [hgi]
      simp only [group_keys, List.map_cons] at ih ⊢
      rw [ih]
      by_cases h2 : k ∈ t.map (fun kv => kv.1)
      · simp [h2, Ne.symm h]
      · simp [h2, Ne.symm h]

theorem group_keys_insert_nodup (m : List (ℕ × List (String × ℤ))) (k : ℕ)
    (v : String × ℤ) (h : (group_keys m).Nodup) :
    (group_keys (group_insert m k v)).Nodup := by
  rw [group_keys_insert]
  by_cases h2 : k ∈ group_keys m
  · simpa [h2] using h
  · simp [h2, List.nodup_append, h]

theorem group_keys_fold_nodup (key : ℤ → ℕ) (rs : List (String × ℤ)) :
    ∀ m : List (ℕ × List (String × ℤ)), (group_keys m).Nodup →
      (group_keys (rs.foldl (fun m r => group_insert m (key r.2) r) m)).Nodup := by
  induction rs with
  | nil => intro m h; exact h
  | cons r rs ih =>
    intro m h
    rw [List.foldl_cons]
    exact ih _ (group_keys_insert_nodup m _ r h)

theorem group_by_key_nodup (key : ℤ → ℕ) (rs : List (String × ℤ)) :
    (group_keys (group_by_key key rs)).Nodup :=
  group_keys_fold_nodup key rs [] (by simp [group_keys])

theorem find_val_of_mem (m : List (ℕ × List (String × ℤ))) (k : ℕ)
    (l : List (String × ℤ)) (hnd : (group_keys m).Nodup) (hm : (k, l) ∈ m) :
    find_val m k = some l := by
  induction m with
  | nil => cases hm
  | cons kv t ih =>
    obtain ⟨k0, l0⟩ := kv
    rcases List.mem_cons.mp hm with he | ht
    · cases he
      simp [find_val]
    · by_cases h : k0 = k
      · subst h
        exfalso
        have hk : k0 ∈ group_keys t :=
          List.mem_map.mpr ⟨(k0, l), ht, rfl⟩
        exact (List.nodup_cons.mp (by simpa [group_keys] using hnd)).1 hk
      · have hnd2 : (group_keys t).Nodup :=
          (List.nodup_cons.mp (by simpa [group_keys] using hnd)).2
        simp [find_val, h, ih hnd2 ht]

theorem mem_of_find_val (m : List (ℕ × List (String × ℤ))) (k : ℕ)
    (l : List (String × ℤ)) (h : find_val m k = some l) : (k, l) ∈ m := by
  induction m with
  | nil => simp [find_val] at h
  | cons kv t ih =>
    obtain ⟨k0, l0⟩ := kv
    by_cases h0 : k0 = k
    · subst h0
      rw [show find_val ((k0, l0) :: t) k0 = some l0 from by simp [find_val]] at h
      obtain rfl : l0 = l := Option.some_inj.mp h
      exact List.mem_cons_self _ _
    · rw [show find_val ((k0, l0) :: t) k = find_val t k from by simp [find_val, h0]] at h
      exact List.mem_cons_of_mem _ (ih h)

/-- C9: under any sub-field grouping — in particular the default 16/16
scheme's shard field — a value appears among the reported collision groups
exactly when at least two corpus records share it, the reported group lists
exactly the contributing `(label, id)` pairs in corpus order, and two
distinct ids sharing the 16/16 shard value `5` produce a collision entry
listing both labels. -/
theorem collision_groups :
    (∀ (key : ℤ → ℕ) (rs : List (String × ℤ)) (k : ℕ),
      ((∃ l, (k, l) ∈ dup_groups key rs) ↔ 2 ≤ (occ_list key k rs).length)
      ∧ (∀ l, (k, l) ∈ dup_groups key rs → l = occ_list key k rs))
    ∧ dup_groups shard_of [("A", 327718), ("B", 327680)] =
        [(5, [("A", 327718), ("B", 327680)])] := by
  have hchar : ∀ (key : ℤ → ℕ) (rs : List (String × ℤ)) (k : ℕ)
      (l : List (String × ℤ)),
      (k, l) ∈ dup_groups key rs → l = occ_list key k rs ∧ 1 < l.length := by
    intro key rs k l hm
    have hf := List.mem_filter.mp hm
    have hfv := find_val_of_mem _ _ _ (group_by_key_nodup key rs) hf.1
    rw [find_val_group_by] at hfv
    have hlen : 1 < l.length := by simpa using hf.2
    by_cases he : (occ_list key k rs).isEmpty
    · rw [if_pos he] at hfv
      cases hfv
    · rw [if_neg he] at hfv
      exact ⟨(Option.some_inj.mp hfv).symm, hlen⟩
  constructor
  · intro key rs k
    constructor
    · constructor
      · rintro ⟨l, hl⟩
        obtain ⟨hleq, hlen⟩ := hchar key rs k l hl
        rw [hleq] at hlen
        omega
      · intro h2
        have hne : ¬ (occ_list key k rs).isEmpty = true := by
          intro habs
          rw [List.isEmpty_iff] at habs
          rw [habs] at h2
          simp at h2
        have hfv : find_val (group_by_key key rs) k = some (occ_list key k rs) := by
          rw [find_val_group_by, if_neg hne]
        refine ⟨occ_list key k rs, List.mem_filter.mpr
          ⟨mem_of_find_val _ _ _ hfv, by simpa using (by omega : 1 < (occ_list key k rs).length)⟩⟩
    · intro l hl
      exact (hchar key rs k l hl).1
  · decide

/-- Witness for C9: the shard value `5` is reported as a collision for the
concrete two-record corpus. -/
theorem collision_groups_witness :
    ∃ l, (5, l) ∈ dup_groups shard_of [("A", 327718), ("B", 327680)] :=
  (collision_groups.1 shard_of [("A", 327718), ("B", 327680)] 5).1.mpr (by decide)
